import Mathlib

/-!
Shallow embedding of the `lbsolve` letter-boxed solver core
(`src/lbsolve/game_dictionary.py` and `src/lbsolve/solution_finder.py`).

Python dictionaries are insertion ordered, so every `dict` is modelled as an
association list (`List (key × value)`), with `odFind` playing the role of
`d.get(k)` / `d[k]` and `odSetApp` the role of `d.setdefault(k, dflt)`
followed by an update of the returned value in place.

Letters are `Char` (every `Word` in the system is a non-empty lowercase
token, so `word[0]`, `word[-1]` and the one-character `last_letter` strings
of the Python code are total here).  `frozenset` becomes `Finset Char`.
Python exceptions are modelled with `Except String` (`ValueError` from
`clone_and_extend`) and `Option` (`KeyError` from a direct `dict` access).
-/

namespace LBSolve

/-- `d.get(k)` on an insertion-ordered dict modelled as an association list. -/
def odFind {K V : Type} [DecidableEq K] (k : K) : List (K × V) → Option V
  | [] => none
  | (k', v) :: rest => if k' = k then some v else odFind k rest

/-- `lst = d.setdefault(k, dflt)` followed by mutating `lst` to `f lst`:
if `k` is present its value is updated in place, otherwise `(k, f dflt)` is
appended at the end (Python dicts append new keys in insertion order). -/
def odSetApp {K V : Type} [DecidableEq K] (k : K) (dflt : V) (f : V → V) :
    List (K × V) → List (K × V)
  | [] => [(k, f dflt)]
  | (k', v) :: rest =>
    if k' = k then (k', f v) :: rest else (k', v) :: odSetApp k dflt f rest

/-- `game_dictionary.Word`: a validated, non-empty lowercase token.
Equality is by textual value (`__eq__` compares `_word`). -/
structure Word where
  chars : List Char
  ne : chars ≠ []

instance : DecidableEq Word := fun a b =>
  decidable_of_iff (a.chars = b.chars) (by cases a; cases b; simp)

/-- `Word.first_letter`: `self._word[0]`. -/
def Word.first_letter (w : Word) : Char := w.chars.head w.ne

/-- `Word.last_letter`: `self._word[-1]`. -/
def Word.last_letter (w : Word) : Char := w.chars.getLast w.ne

/-- `Word.unique_letters`: `frozenset(word)`. -/
def Word.unique_letters (w : Word) : Finset Char := w.chars.toFinset

/-- `solution_finder.PartialSolution`: a write-once, non-empty word sequence
(`WordSequence.__init__` raises on an empty argument list).  Equality is
structural, by the word sequence. -/
structure PartialSolution where
  sequence : List Word
  ne : sequence ≠ []

instance : DecidableEq PartialSolution := fun a b =>
  decidable_of_iff (a.sequence = b.sequence) (by cases a; cases b; simp)

/-- `PartialSolution.last_letter`: `sequence[-1].last_letter`. -/
def PartialSolution.last_letter (p : PartialSolution) : Char :=
  (p.sequence.getLast p.ne).last_letter

/-- `PartialSolution.unique_letters`:
`frozenset(letter for word in sequence for letter in word.unique_letters)`. -/
def PartialSolution.unique_letters (p : PartialSolution) : Finset Char :=
  p.sequence.foldr (fun w acc => w.unique_letters ∪ acc) ∅

/-- `PartialSolution.__len__`: the number of words in the chain. -/
def PartialSolution.length (p : PartialSolution) : Nat := p.sequence.length

/-- `PartialSolution.clone_and_extend`: raises `ValueError` when the chain's
last letter differs from the new word's first letter (the `self.last_letter`
truthiness guard is always satisfied because words are non-empty). -/
def PartialSolution.clone_and_extend (p : PartialSolution) (w : Word) :
    Except String PartialSolution :=
  if p.last_letter ≠ w.first_letter then
    .error "First letter of new word does not match last letter of last word"
  else
    .ok ⟨p.sequence ++ [w], by simp⟩

/-- `solution_finder.PartialSolutionMap`: partial solutions indexed by last
letter then unique-letter count, the symmetric grouping, a flat
insertion-ordered list, and a running count. -/
structure PartialSolutionMap where
  candidates_by_uniques_by_last_letter : List (Char × List (Nat × List PartialSolution))
  candidates_by_last_letter_by_uniques : List (Nat × List (Char × List PartialSolution))
  linear_candidates : List PartialSolution
  count : Nat

/-- `PartialSolutionMap.__init__`. -/
def PartialSolutionMap.empty : PartialSolutionMap := ⟨[], [], [], 0⟩

/-- `PartialSolutionMap.insert`: append the candidate to both grouped views
(creating inner dicts/lists on demand via `setdefault`), to the flat list,
and bump the count. -/
def PartialSolutionMap.insert (m : PartialSolutionMap) (c : PartialSolution) :
    PartialSolutionMap where
  candidates_by_uniques_by_last_letter :=
    odSetApp c.last_letter []
      (fun inner => odSetApp c.unique_letters.card [] (fun l => l ++ [c]) inner)
      m.candidates_by_uniques_by_last_letter
  candidates_by_last_letter_by_uniques :=
    odSetApp c.unique_letters.card []
      (fun inner => odSetApp c.last_letter [] (fun l => l ++ [c]) inner)
      m.candidates_by_last_letter_by_uniques
  linear_candidates := m.linear_candidates ++ [c]
  count := m.count + 1

/-- `PartialSolutionMap.merge`: insert each candidate of the source
collection, skipping any already present (structural equality) in the flat
list, which grows as the merge proceeds. -/
def PartialSolutionMap.merge (m : PartialSolutionMap) (other : List PartialSolution) :
    PartialSolutionMap :=
  other.foldl
    (fun acc c => if c ∈ acc.linear_candidates then acc else acc.insert c) m

/-- The valid key shapes of `PartialSolutionMap.__getitem__` (`Letter`,
`UniqueCount`, or an ordered pair of the two); an invalid shape raises
`LookupError` in the source and is simply not representable here. -/
inductive MapKey where
  | letter (c : Char)
  | uniques (n : Nat)
  | letterUniques (c : Char) (n : Nat)
  | uniquesLetter (n : Nat) (c : Char)

/-- `PartialSolutionMap.__getitem__` on the valid key shapes.  Absent keys
yield `[]` (the source uses `.get(lookup, {})` / `.get(lookup, [])`). -/
def PartialSolutionMap.getItem (m : PartialSolutionMap) : MapKey → List PartialSolution
  | .letter c =>
    (((odFind c m.candidates_by_uniques_by_last_letter).getD []).map Prod.snd).flatten
  | .uniques n =>
    (((odFind n m.candidates_by_last_letter_by_uniques).getD []).map Prod.snd).flatten
  | .letterUniques c n =>
    (odFind n ((odFind c m.candidates_by_uniques_by_last_letter).getD [])).getD []
  | .uniquesLetter n c =>
    (odFind c ((odFind n m.candidates_by_last_letter_by_uniques).getD [])).getD []

/-- `Solution = PartialSolution`. -/
abbrev Solution := PartialSolution

/-- `solution_finder.SolutionList`: completed solutions grouped by word
count in an `OrderedDict`, plus a flat insertion-ordered list and a count. -/
structure SolutionList where
  solutions_by_words : List (Nat × List Solution)
  linear_solutions : List Solution
  count : Nat

instance : DecidableEq SolutionList := fun a b =>
  decidable_of_iff
    (a.solutions_by_words = b.solutions_by_words ∧
      a.linear_solutions = b.linear_solutions ∧ a.count = b.count)
    (by cases a; cases b; simp)

/-- `SolutionList.__init__`. -/
def SolutionList.empty : SolutionList := ⟨[], [], 0⟩

/-- Comparison of `solutions_by_words` entries by their word-count key. -/
def entryLe (a b : Nat × List Solution) : Prop := a.1 ≤ b.1

instance : DecidableRel entryLe := fun a b => inferInstanceAs (Decidable (a.1 ≤ b.1))

instance : IsTotal (Nat × List Solution) entryLe := ⟨fun a b => Nat.le_total a.1 b.1⟩

instance : IsTrans (Nat × List Solution) entryLe := ⟨fun _ _ _ h1 h2 => Nat.le_trans h1 h2⟩

/-- Reordering of the `OrderedDict` performed by
`for key in sorted(keys): move_to_end(key)`: the entries end up ascending by
key (the keys of a dict are distinct, so which sort is irrelevant). -/
def sortEntries (l : List (Nat × List Solution)) : List (Nat × List Solution) :=
  l.insertionSort entryLe

/-- `SolutionList.insert`: `setdefault(len(solution), [])`; when that list is
empty (i.e. the length key is new) the key order is re-sorted ascending; then
the solution is appended to its group, to the flat list, and counted. -/
def SolutionList.insert (sl : SolutionList) (s : Solution) : SolutionList :=
  let n := s.length
  let cur := odFind n sl.solutions_by_words
  let d1 := if cur.isSome then sl.solutions_by_words
            else sl.solutions_by_words ++ [(n, [])]
  let d2 := if (cur.getD []).isEmpty then sortEntries d1 else d1
  { solutions_by_words := odSetApp n [] (fun l => l ++ [s]) d2
    linear_solutions := sl.linear_solutions ++ [s]
    count := sl.count + 1 }

/-- `SolutionList.flatten`: returns `self.linear_solutions`. -/
def SolutionList.flatten (sl : SolutionList) : List Solution := sl.linear_solutions

/-- `SolutionList.__contains__`: membership in the flat list. -/
def SolutionList.contains (sl : SolutionList) (s : Solution) : Prop :=
  s ∈ sl.linear_solutions

instance (sl : SolutionList) (s : Solution) : Decidable (sl.contains s) :=
  inferInstanceAs (Decidable (s ∈ sl.linear_solutions))

/-- `SolutionList.__iter__`: the groups in dict order, each in list order. -/
def SolutionList.iterList (sl : SolutionList) : List Solution :=
  (sl.solutions_by_words.map Prod.snd).flatten

/-- `SolutionList.__getitem__` with a `WordCount` key: a direct
`self.solutions_by_words[lookup]` access, so an absent key raises `KeyError`,
modelled by `none`. -/
def SolutionList.getItemWords (sl : SolutionList) (n : Nat) : Option (List Solution) :=
  odFind n sl.solutions_by_words

/-- `game_dictionary.GameDictionary`, restricted to the state the search
engine consumes: the normalized letter groups and the two word indices
(`_words_by_first_letter` keys the inner dict by the word's
`unique_letters` *frozenset*, `_words_by_uniques` by count then first
letter).  File loading and validity counters are I/O plumbing the engine
never reads and are not modelled. -/
structure GameDictionary where
  letter_groups : List (List Char)
  words_by_first_letter : List (Char × List (Finset Char × List Word))
  words_by_uniques : List (Nat × List (Char × List Word))

/-- `GameDictionary.get_letter_candidates`: letters of every group not
containing `current_letter`, in group order; `none` models the default `""`
argument, which no group contains. -/
def GameDictionary.get_letter_candidates (d : GameDictionary)
    (current_letter : Option Char := none) : List Char :=
  d.letter_groups.foldl
    (fun acc g =>
      if (match current_letter with | some c => decide (c ∈ g) | none => false) then acc
      else acc ++ g) []

/-- `GameDictionary._add_word_to_words_by_first_letter`. -/
def GameDictionary.add_word_to_words_by_first_letter (d : GameDictionary) (w : Word) :
    GameDictionary :=
  { d with
    words_by_first_letter :=
      odSetApp w.first_letter []
        (fun inner => odSetApp w.unique_letters [] (fun l => l ++ [w]) inner)
        d.words_by_first_letter }

/-- `GameDictionary._add_word_to_words_by_uniques`. -/
def GameDictionary.add_word_to_words_by_uniques (d : GameDictionary) (w : Word) :
    GameDictionary :=
  { d with
    words_by_uniques :=
      odSetApp w.unique_letters.card []
        (fun inner => odSetApp w.first_letter [] (fun l => l ++ [w]) inner)
        d.words_by_uniques }

/-- The per-word body of `GameDictionary.create` for an already validated
word: add it to both indices. -/
def GameDictionary.addWord (d : GameDictionary) (w : Word) : GameDictionary :=
  (d.add_word_to_words_by_first_letter w).add_word_to_words_by_uniques w

/-- `GameDictionary.ordered_by_first_letter`: flatten the
first-letter-grouped index in dict insertion order. -/
def GameDictionary.ordered_by_first_letter (d : GameDictionary) : List Word :=
  ((d.words_by_first_letter.map Prod.snd).map
    (fun inner => (inner.map Prod.snd).flatten)).flatten

/-- `GameDictionary.ordered_by_uniques`: flatten the unique-count-grouped
index in dict insertion order. -/
def GameDictionary.ordered_by_uniques (d : GameDictionary) : List Word :=
  ((d.words_by_uniques.map Prod.snd).map
    (fun inner => (inner.map Prod.snd).flatten)).flatten

/-- `GameDictionary.get_words_with_uniques`: all words with the given
unique-letter count (empty when the count is absent). -/
def GameDictionary.get_words_with_uniques (d : GameDictionary) (n : Nat) : List Word :=
  (((odFind n d.words_by_uniques).getD []).map Prod.snd).flatten

/-- `solution_finder.SolutionFinder` state.  The `Lock`, the `Thread` object
and the `daemon` flag are scheduling plumbing; the pure state the algorithms
read and write is modelled.  `max_depth = 0` covers both `None` and `0`,
which are equally falsy in `if self.max_depth`. -/
structure SolutionFinder where
  game_dictionary : GameDictionary
  max_depth : Nat
  solutions : SolutionList
  thread_should_stop : Bool
  solution_candidates : PartialSolutionMap

/-- `SolutionFinder.__init__`. -/
def SolutionFinder.init (d : GameDictionary) (max_depth : Nat := 0) : SolutionFinder :=
  ⟨d, max_depth, SolutionList.empty, false, PartialSolutionMap.empty⟩

/-- `PartialSolution(WordSequence(word))`: the single-word candidate. -/
def PartialSolution.single (w : Word) : PartialSolution := ⟨[w], by simp⟩

/-- `SolutionFinder._seed_candidates`: one single-word candidate per word of
`ordered_by_first_letter()`, inserted into a fresh map in that order. -/
def SolutionFinder.seed_candidates (sf : SolutionFinder) : PartialSolutionMap :=
  (sf.game_dictionary.ordered_by_first_letter).foldl
    (fun acc w => acc.insert (PartialSolution.single w)) PartialSolutionMap.empty

/-- `SolutionFinder._add_new_solution`: insert into `self.solutions` (the
lock and the progress print are concurrency/O plumbing). -/
def SolutionFinder.add_new_solution (sf : SolutionFinder) (s : Solution) : SolutionFinder :=
  { sf with solutions := sf.solutions.insert s }

/-- The loop body of `_add_word_to_solution_candidates`: skip a candidate
already containing the word, otherwise extend it and insert the extension. -/
def SolutionFinder.extendStep (new_word : Word) (acc : PartialSolutionMap)
    (c : PartialSolution) : Except String PartialSolutionMap :=
  if new_word ∈ c.sequence then pure acc
  else do
    let nc ← c.clone_and_extend new_word
    pure (acc.insert nc)

/-- `SolutionFinder._add_word_to_solution_candidates`: fetch the candidates
whose last letter is the new word's first letter, skip those already
containing the word, extend the rest into a fresh map.  A chain-violation
`ValueError` from `clone_and_extend` propagates. -/
def SolutionFinder.add_word_to_solution_candidates
    (solution_candidates : PartialSolutionMap) (new_word : Word) :
    Except String PartialSolutionMap :=
  (solution_candidates.getItem (.letter new_word.first_letter)).foldlM
    (SolutionFinder.extendStep new_word) PartialSolutionMap.empty

/-- The loop body of `_promote_candidates`: a candidate covering fewer than
all `num` box letters, or already recorded in the solutions, is skipped;
otherwise it is appended to the new-solutions list and inserted. -/
def SolutionFinder.promoteStep (num : Nat) (acc : SolutionFinder × List Solution)
    (c : PartialSolution) : SolutionFinder × List Solution :=
  if c.unique_letters.card ≠ num then acc
  else if acc.1.solutions.contains c then acc
  else (acc.1.add_new_solution c, acc.2 ++ [c])

/-- `SolutionFinder._promote_candidates`: walk the candidates in flat order;
any whose unique-letter count equals the box letter count and that is not
already recorded is appended to the returned list and inserted into
`self.solutions`.  Returns the updated finder and the new solutions. -/
def SolutionFinder.promote_candidates (sf : SolutionFinder)
    (candidates : PartialSolutionMap) : SolutionFinder × List Solution :=
  let num_game_letters := (sf.game_dictionary.get_letter_candidates none).length
  candidates.linear_candidates.foldl
    (SolutionFinder.promoteStep num_game_letters) (sf, [])

/-- The per-word body of the `_mutate_solution_candidates` loop: extensions
of the (fixed) current index by one catalog word, merged into the
accumulated `new_candidates`. -/
def SolutionFinder.gatherStep (solution_candidates : PartialSolutionMap)
    (acc : PartialSolutionMap) (w : Word) : Except String PartialSolutionMap := do
  let child ← SolutionFinder.add_word_to_solution_candidates solution_candidates w
  pure (acc.merge child.linear_candidates)

/-- `SolutionFinder._mutate_solution_candidates`: one breadth-first
generation.  Extensions of the current index by every catalog word are
merged (deduplicated) into `new_candidates`; completed chains are promoted;
the surviving chains are merged back into the index.  Returns the updated
finder and the count of newly found solutions. -/
def SolutionFinder.mutate_solution_candidates (sf : SolutionFinder) :
    Except String (SolutionFinder × Nat) := do
  let new_candidates ← (sf.game_dictionary.ordered_by_first_letter).foldlM
    (SolutionFinder.gatherStep sf.solution_candidates) PartialSolutionMap.empty
  let (sf1, new_solutions) := sf.promote_candidates new_candidates
  let partial_solutions :=
    new_candidates.linear_candidates.filter (fun c => c ∉ new_solutions)
  let sf2 := { sf1 with
    solution_candidates := sf1.solution_candidates.merge partial_solutions }
  pure (sf2, new_solutions.length)

/-- The `while not self._thread_should_stop` loop of
`SolutionFinder._find_solutions_breadth_first`, with explicit fuel (the
Python loop is unbounded); fuel exhaustion returns the state reached. -/
def SolutionFinder.bfLoop : Nat → SolutionFinder → Bool → Nat →
    Except String SolutionFinder
  | 0, sf, _, _ => .ok sf
  | fuel + 1, sf, have_solutions, depth =>
    if sf.thread_should_stop then .ok sf
    else do
      let (sf1, new_solutions_count) ← sf.mutate_solution_candidates
      let have' := if new_solutions_count ≠ 0 then true else have_solutions
      if have' ∧ new_solutions_count = 0 then .ok sf1
      else if sf1.max_depth ≠ 0 ∧ depth + 1 ≥ sf1.max_depth then .ok sf1
      else SolutionFinder.bfLoop fuel sf1 have' (depth + 1)

/-- `SolutionFinder._find_solutions_breadth_first`: seed, then run
generations until a stopping condition (stop flag, no-new-solutions after
the first solution, or max depth). -/
def SolutionFinder.find_solutions_breadth_first (fuel : Nat) (sf : SolutionFinder) :
    Except String SolutionFinder :=
  SolutionFinder.bfLoop fuel
    { sf with solution_candidates := sf.seed_candidates } false 0

/-- One tier of `SolutionFinder._find_solutions_depth_first`: insert a root
candidate for every word of the tier, then for each word extend the whole
index, promote, and merge back survivors. -/
def SolutionFinder.dfTier (sf : SolutionFinder) (number : Nat) :
    Except String SolutionFinder := do
  let words := sf.game_dictionary.get_words_with_uniques number
  let sf := { sf with
    solution_candidates :=
      words.foldl (fun m w => m.insert (PartialSolution.single w)) sf.solution_candidates }
  words.foldlM
    (fun (sf : SolutionFinder) w => do
      let child ← SolutionFinder.add_word_to_solution_candidates
        sf.solution_candidates w
      let (sf1, new_solutions) := sf.promote_candidates child
      let partial_solutions :=
        child.linear_candidates.filter (fun c => c ∉ new_solutions)
      pure { sf1 with
        solution_candidates := sf1.solution_candidates.merge partial_solutions })
    sf

/-- `SolutionFinder._find_solutions_depth_first`, the target the solver
thread actually runs: promote any single full-coverage words, then
`num_game_letters` meta passes over the unique-count tiers from
`num_game_letters - 1` down to `1`.  Note: no branch of this function reads
`thread_should_stop`. -/
def SolutionFinder.find_solutions_depth_first (sf : SolutionFinder) :
    Except String SolutionFinder := do
  let sf := { sf with solution_candidates := PartialSolutionMap.empty }
  let num_game_letters := (sf.game_dictionary.get_letter_candidates none).length
  let (sf, _one_word_solutions) :=
    (sf.game_dictionary.get_words_with_uniques num_game_letters).foldl
      (fun (acc : SolutionFinder × PartialSolutionMap) w =>
        let ows := acc.2.insert (PartialSolution.single w)
        ((acc.1.promote_candidates ows).1, ows))
      (sf, PartialSolutionMap.empty)
  (List.range num_game_letters).foldlM
    (fun (sf : SolutionFinder) _ =>
      (((List.range num_game_letters).drop 1).reverse).foldlM
        SolutionFinder.dfTier sf)
    sf

/-! ## Heap model for `get_solutions`

`SolutionFinder.get_solutions` returns `deepcopy(self.solutions)` taken
under the lock.  Aliasing is a property of object identity, so it is made
explicit with a store of `SolutionList` cells addressed by references:
`deepcopy` allocates a fresh cell holding the same value, and a mutation of
a returned `SolutionList` is a write through its reference. -/

/-- A store of `SolutionList` objects; a reference is an index. -/
structure SolutionStore where
  cells : List SolutionList

/-- Dereference. -/
def SolutionStore.read (st : SolutionStore) (r : Nat) : SolutionList :=
  st.cells.getD r SolutionList.empty

/-- In-place mutation of the object behind a reference. -/
def SolutionStore.write (st : SolutionStore) (r : Nat) (v : SolutionList) :
    SolutionStore :=
  ⟨st.cells.set r v⟩

/-- `SolutionFinder.get_solutions`: `deepcopy(self.solutions)` — allocate a
fresh cell holding the value currently behind the engine's reference and
return the new reference (the lock only orders this against the writer
thread and has no pure content). -/
def SolutionStore.get_solutions (st : SolutionStore) (engine : Nat) :
    SolutionStore × Nat :=
  (⟨st.cells ++ [st.read engine]⟩, st.cells.length)

/-! ## Concrete scenarios -/

/-- Extract the finder from one successful generation
(`_mutate_solution_candidates`), keeping the input finder on error. -/
def mutateStep (sf : SolutionFinder) : SolutionFinder :=
  match sf.mutate_solution_candidates with
  | .ok p => p.1
  | .error _ => sf

/-- Extract the finder from a `_find_solutions_depth_first` run, keeping the
input finder on error. -/
def dfStep (sf : SolutionFinder) : SolutionFinder :=
  match sf.find_solutions_depth_first with
  | .ok sf' => sf'
  | .error _ => sf

/-- A `SolutionList` built by a sequence of `insert` calls from the empty
state (every reachable `SolutionList` arises this way). -/
def buildSL (ss : List Solution) : SolutionList :=
  ss.foldl SolutionList.insert SolutionList.empty

/-- The dictionary of the documented scenario: box sides
`(c,a,r) (e,o,l) (d,n,u) (i,b,y)` and the nine catalog words, added the way
`GameDictionary.create` adds validated words, in file order. -/
def c3_dict : GameDictionary :=
  [(⟨"car".toList, by decide⟩ : Word), ⟨"care".toList, by decide⟩,
   ⟨"cold".toList, by decide⟩, ⟨"could".toList, by decide⟩,
   ⟨"dare".toList, by decide⟩, ⟨"drain".toList, by decide⟩,
   ⟨"end".toList, by decide⟩, ⟨"noun".toList, by decide⟩,
   ⟨"nearby".toList, by decide⟩].foldl GameDictionary.addWord
    ⟨[['c', 'a', 'r'], ['e', 'o', 'l'], ['d', 'n', 'u'], ['i', 'b', 'y']], [], []⟩

/-- The scenario's finder right after seeding (generation 0). -/
def c3_sf0 : SolutionFinder :=
  let sf := SolutionFinder.init c3_dict
  { sf with solution_candidates := sf.seed_candidates }

/-- The expected three-word solution `could-drain-nearby`. -/
def c3_solution : Solution :=
  ⟨[⟨"could".toList, by decide⟩, ⟨"drain".toList, by decide⟩,
    ⟨"nearby".toList, by decide⟩], by decide⟩

/-- A one-word, one-sided dictionary exercising `_find_solutions_depth_first`:
box side `(a,b,c)`, single catalog word `aba`. -/
def c4_dict : GameDictionary :=
  GameDictionary.addWord ⟨[['a', 'b', 'c']], [], []⟩ ⟨"aba".toList, by decide⟩

/-- A finder over `c4_dict` whose stop flag is already set when the solver
thread's target starts running. -/
def c4_sf : SolutionFinder :=
  { SolutionFinder.init c4_dict with thread_should_stop := true }

/-- A dictionary whose first-letter traversal and unique-count traversal
differ: words `abb` (2 unique letters), `abc` (3), `bcc` (2). -/
def c8_dict : GameDictionary :=
  [(⟨"abb".toList, by decide⟩ : Word), ⟨"abc".toList, by decide⟩,
   ⟨"bcc".toList, by decide⟩].foldl GameDictionary.addWord
    ⟨[['a', 'b', 'c']], [], []⟩

/-- A one-cell store holding an empty solution list. -/
def c9_store : SolutionStore := ⟨[SolutionList.empty]⟩

/-- A throwaway single-letter word for concrete instances. -/
def wA : Word := ⟨['a'], by decide⟩

/-- A concrete one-word candidate. -/
def psA : PartialSolution := PartialSolution.single wA

/-- A concrete two-word solution value (`SolutionList` never checks chains). -/
def ps2 : Solution := ⟨[wA, wA], by decide⟩

/-- A concrete three-word solution value. -/
def ps3 : Solution := ⟨[wA, wA, wA], by decide⟩

/-! ## Well-formedness predicates used by the invariant proofs -/

/-- The chain constraint: each word begins with the letter the previous word
ended on. -/
def Chained (l : List Word) : Prop :=
  List.Chain' (fun a b => a.last_letter = b.first_letter) l

/-- A well-formed candidate: chained and free of repeated words. -/
def GoodPS (p : PartialSolution) : Prop := Chained p.sequence ∧ p.sequence.Nodup

/-- Every candidate stored in the by-last-letter view sits under its own
last letter and is well formed. -/
def ViewOK (m : PartialSolutionMap) : Prop :=
  ∀ e ∈ m.candidates_by_uniques_by_last_letter, ∀ q ∈ e.2, ∀ c ∈ q.2,
    c.last_letter = e.1 ∧ GoodPS c

/-- Every candidate in the flat list is well formed. -/
def LinearOK (m : PartialSolutionMap) : Prop :=
  ∀ c ∈ m.linear_candidates, GoodPS c

/-- The well-formedness invariant of a candidate index. -/
def MapOK (m : PartialSolutionMap) : Prop := ViewOK m ∧ LinearOK m

/-- Every recorded solution is well formed. -/
def SolOK (sl : SolutionList) : Prop := ∀ s ∈ sl.linear_solutions, GoodPS s

/-- The keys of an entry list strictly ascend. -/
def EntriesLt (l : List (Nat × List Solution)) : Prop :=
  l.Pairwise (fun a b => a.1 < b.1)

/-! ## Lemmas about the ordered-dict model -/

section ODLemmas

variable {K V : Type} [DecidableEq K] {k k' : K} {v dflt : V} {f : V → V}
variable {l l₁ l₂ : List (K × V)}

theorem odFind_none_iff : odFind k l = none ↔ k ∉ l.map Prod.fst := by
  induction l with
  | nil => simp [odFind]
  | cons e rest ih =>
    obtain ⟨k₁, v₁⟩ := e
    by_cases h : k₁ = k
    · subst h; simp [odFind]
    · simp only [odFind, h, if_false, List.map_cons, List.mem_cons]
      rw [ih]
      constructor
      · intro hn hor
        rcases hor with h1 | h2
        · exact h h1.symm
        · exact hn h2
      · exact fun hn h2 => hn (Or.inr h2)

theorem odFind_some_mem (h : odFind k l = some v) : (k, v) ∈ l := by
  induction l with
  | nil => simp [odFind] at h
  | cons e rest ih =>
    obtain ⟨k₁, v₁⟩ := e
    by_cases hk : k₁ = k
    · subst hk
      simp [odFind] at h
      simp [h]
    · simp [odFind, hk] at h
      exact List.mem_cons_of_mem _ (ih h)

theorem odFind_eq_some_iff_of_nodup (hnd : (l.map Prod.fst).Nodup) :
    odFind k l = some v ↔ (k, v) ∈ l := by
  constructor
  · exact odFind_some_mem
  · intro hmem
    induction l with
    | nil => simp at hmem
    | cons e rest ih =>
      obtain ⟨k₁, v₁⟩ := e
      simp only [List.map_cons, List.nodup_cons] at hnd
      rcases List.mem_cons.mp hmem with heq | htail
      · simp only [Prod.mk.injEq] at heq
        obtain ⟨rfl, rfl⟩ := heq
        simp [odFind]
      · by_cases hk : k₁ = k
        · subst hk
          exact absurd (List.mem_map.mpr ⟨(k₁, v), htail, rfl⟩) hnd.1
        · simpa [odFind, hk] using ih hnd.2 htail

theorem odFind_congr_perm (hp : l₁.Perm l₂) (hnd : (l₁.map Prod.fst).Nodup) :
    odFind k l₁ = odFind k l₂ := by
  have hnd₂ : (l₂.map Prod.fst).Nodup := ((hp.map Prod.fst).nodup_iff).mp hnd
  cases h₂ : odFind k l₂ with
  | some v =>
    exact (odFind_eq_some_iff_of_nodup hnd).mpr (hp.mem_iff.mpr (odFind_some_mem h₂))
  | none =>
    refine odFind_none_iff.mpr ?_
    intro hk
    exact odFind_none_iff.mp h₂ ((hp.map Prod.fst).mem_iff.mp hk)

theorem odFind_append_of_none (h : odFind k l₁ = none) :
    odFind k (l₁ ++ l₂) = odFind k l₂ := by
  induction l₁ with
  | nil => simp
  | cons e rest ih =>
    obtain ⟨k₁, v₁⟩ := e
    by_cases hk : k₁ = k
    · simp [odFind, hk] at h
    · simp only [odFind, hk, if_false] at h ⊢
      exact ih h

theorem odFind_append_of_some (h : odFind k l₁ = some v) :
    odFind k (l₁ ++ l₂) = some v := by
  induction l₁ with
  | nil => simp [odFind] at h
  | cons e rest ih =>
    obtain ⟨k₁, v₁⟩ := e
    by_cases hk : k₁ = k <;> simp only [odFind, hk, if_true, if_false] at h ⊢
    · exact h
    · exact ih h

theorem odFind_odSetApp_self :
    odFind k (odSetApp k dflt f l) = some (f ((odFind k l).getD dflt)) := by
  induction l with
  | nil => simp [odFind, odSetApp]
  | cons e rest ih =>
    obtain ⟨k₁, v₁⟩ := e
    by_cases hk : k₁ = k <;> simp [odFind, odSetApp, hk, ih]

theorem odFind_odSetApp_ne (h : k' ≠ k) :
    odFind k' (odSetApp k dflt f l) = odFind k' l := by
  induction l with
  | nil => simp [odFind, odSetApp, Ne.symm h]
  | cons e rest ih =>
    obtain ⟨k₁, v₁⟩ := e
    by_cases hk : k₁ = k
    · subst hk
      simp [odFind, odSetApp, Ne.symm h]
    · by_cases hk' : k₁ = k' <;> simp [odFind, odSetApp, hk, hk', ih, h]

theorem odSetApp_map_fst_of_isSome (h : (odFind k l).isSome) :
    (odSetApp k dflt f l).map Prod.fst = l.map Prod.fst := by
  induction l with
  | nil => simp [odFind] at h
  | cons e rest ih =>
    obtain ⟨k₁, v₁⟩ := e
    by_cases hk : k₁ = k
    · simp [odSetApp, hk]
    · simp only [odFind, hk, if_false] at h
      simp [odSetApp, hk, ih h]

theorem odSetApp_forall {P : K × V → Prop} (hl : ∀ e ∈ l, P e)
    (hd : P (k, f dflt)) (hf : ∀ v, P (k, v) → P (k, f v)) :
    ∀ e ∈ odSetApp k dflt f l, P e := by
  induction l with
  | nil =>
    intro e he
    simp only [odSetApp, List.mem_singleton] at he
    exact he ▸ hd
  | cons e₀ rest ih =>
    obtain ⟨k₁, v₁⟩ := e₀
    intro e he
    by_cases hk : k₁ = k
    · subst hk
      simp only [odSetApp, if_true, List.mem_cons] at he
      rcases he with rfl | he
      · exact hf v₁ (hl _ (List.mem_cons_self _ _))
      · exact hl e (List.mem_cons_of_mem _ he)
    · simp only [odSetApp, hk, if_false, List.mem_cons] at he
      rcases he with rfl | he
      · exact hl _ (List.mem_cons_self _ _)
      · exact ih (fun e' he' => hl e' (List.mem_cons_of_mem _ he')) e he

end ODLemmas

/-! ## Lemmas about `PartialSolutionMap` -/

@[simp]
theorem PartialSolutionMap.insert_linear (m : PartialSolutionMap) (c : PartialSolution) :
    (m.insert c).linear_candidates = m.linear_candidates ++ [c] := rfl

@[simp]
theorem PartialSolutionMap.insert_count (m : PartialSolutionMap) (c : PartialSolution) :
    (m.insert c).count = m.count + 1 := rfl

@[simp]
theorem PartialSolutionMap.merge_nil (m : PartialSolutionMap) : m.merge [] = m := rfl

theorem PartialSolutionMap.merge_cons (m : PartialSolutionMap) (c : PartialSolution)
    (other : List PartialSolution) :
    m.merge (c :: other) =
      (if c ∈ m.linear_candidates then m else m.insert c).merge other := by
  by_cases h : c ∈ m.linear_candidates <;> simp [PartialSolutionMap.merge, List.foldl, h]

theorem PartialSolutionMap.merge_of_subset (m : PartialSolutionMap)
    (other : List PartialSolution)
    (h : ∀ c ∈ other, c ∈ m.linear_candidates) : m.merge other = m := by
  induction other with
  | nil => rfl
  | cons c rest ih =>
    rw [PartialSolutionMap.merge_cons, if_pos (h c (List.mem_cons_self _ _))]
    exact ih fun c' hc' => h c' (List.mem_cons_of_mem _ hc')

theorem PartialSolutionMap.mem_merge_linear (m : PartialSolutionMap)
    (other : List PartialSolution) (c : PartialSolution) :
    c ∈ (m.merge other).linear_candidates ↔
      c ∈ m.linear_candidates ∨ c ∈ other := by
  induction other generalizing m with
  | nil => simp
  | cons c₀ rest ih =>
    rw [PartialSolutionMap.merge_cons]
    by_cases h : c₀ ∈ m.linear_candidates
    · rw [if_pos h, ih]
      constructor
      · rintro (hm | hr)
        · exact Or.inl hm
        · exact Or.inr (List.mem_cons_of_mem _ hr)
      · rintro (hm | hcr)
        · exact Or.inl hm
        · rcases List.mem_cons.mp hcr with rfl | hr
          · exact Or.inl h
          · exact Or.inr hr
    · rw [if_neg h, ih]
      simp only [PartialSolutionMap.insert_linear, List.mem_append,
        List.mem_singleton, List.mem_cons]
      tauto

theorem PartialSolutionMap.merge_nodup (m : PartialSolutionMap)
    (other : List PartialSolution) (h : m.linear_candidates.Nodup) :
    (m.merge other).linear_candidates.Nodup := by
  induction other generalizing m with
  | nil => exact h
  | cons c rest ih =>
    rw [PartialSolutionMap.merge_cons]
    by_cases hc : c ∈ m.linear_candidates
    · rw [if_pos hc]
      exact ih _ h
    · rw [if_neg hc]
      refine ih _ ?_
      simp [List.nodup_append, h, hc]

/-! ## Lemmas about `SolutionList` and promotion -/

@[simp]
theorem SolutionList.insert_linear_solutions (sl : SolutionList) (s : Solution) :
    (sl.insert s).linear_solutions = sl.linear_solutions ++ [s] := rfl

@[simp]
theorem SolutionList.insert_count_succ (sl : SolutionList) (s : Solution) :
    (sl.insert s).count = sl.count + 1 := rfl

@[simp]
theorem SolutionFinder.add_new_solution_solutions (sf : SolutionFinder) (s : Solution) :
    (sf.add_new_solution s).solutions = sf.solutions.insert s := rfl

@[simp]
theorem SolutionFinder.add_new_solution_dictionary (sf : SolutionFinder) (s : Solution) :
    (sf.add_new_solution s).game_dictionary = sf.game_dictionary := rfl

@[simp]
theorem SolutionFinder.add_new_solution_candidates (sf : SolutionFinder) (s : Solution) :
    (sf.add_new_solution s).solution_candidates = sf.solution_candidates := rfl

@[simp]
theorem SolutionFinder.add_new_solution_max_depth (sf : SolutionFinder) (s : Solution) :
    (sf.add_new_solution s).max_depth = sf.max_depth := rfl

@[simp]
theorem SolutionFinder.add_new_solution_stop (sf : SolutionFinder) (s : Solution) :
    (sf.add_new_solution s).thread_should_stop = sf.thread_should_stop := rfl

theorem promoteStep_eq (num : Nat) (acc : SolutionFinder × List Solution)
    (c : PartialSolution) :
    SolutionFinder.promoteStep num acc c =
      if c.unique_letters.card ≠ num then acc
      else if acc.1.solutions.contains c then acc
      else (acc.1.add_new_solution c, acc.2 ++ [c]) := rfl

theorem promote_fold_mem (num : Nat) (l : List PartialSolution) :
    ∀ (sf : SolutionFinder) (ns : List Solution) (c : Solution),
      c ∈ (l.foldl (SolutionFinder.promoteStep num) (sf, ns)).1.solutions.linear_solutions ↔
        c ∈ sf.solutions.linear_solutions ∨
          (c ∈ l ∧ c.unique_letters.card = num) := by
  induction l with
  | nil => simp
  | cons c₀ rest ih =>
    intro sf ns c
    rw [List.foldl_cons, promoteStep_eq]
    by_cases h₀ : c₀.unique_letters.card ≠ num
    · rw [if_pos h₀, ih]
      constructor
      · rintro (hm | ⟨hr, hcard⟩)
        · exact Or.inl hm
        · exact Or.inr ⟨List.mem_cons_of_mem _ hr, hcard⟩
      · rintro (hm | ⟨hcl, hcard⟩)
        · exact Or.inl hm
        · rcases List.mem_cons.mp hcl with rfl | hr
          · exact absurd hcard h₀
          · exact Or.inr ⟨hr, hcard⟩
    · push_neg at h₀
      rw [if_neg (by simpa using h₀)]
      by_cases hc₀ : sf.solutions.contains c₀
      · rw [if_pos hc₀, ih]
        constructor
        · rintro (hm | ⟨hr, hcard⟩)
          · exact Or.inl hm
          · exact Or.inr ⟨List.mem_cons_of_mem _ hr, hcard⟩
        · rintro (hm | ⟨hcl, hcard⟩)
          · exact Or.inl hm
          · rcases List.mem_cons.mp hcl with rfl | hr
            · exact Or.inl hc₀
            · exact Or.inr ⟨hr, hcard⟩
      · rw [if_neg hc₀, ih]
        simp only [SolutionFinder.add_new_solution_solutions,
          SolutionList.insert_linear_solutions, List.mem_append, List.mem_singleton,
          List.mem_cons, List.not_mem_nil, or_false]
        constructor
        · rintro ((hm | rfl) | ⟨hr, hcard⟩)
          · exact Or.inl hm
          · exact Or.inr ⟨Or.inl rfl, h₀⟩
          · exact Or.inr ⟨Or.inr hr, hcard⟩
        · rintro (hm | ⟨rfl | hr, hcard⟩)
          · exact Or.inl (Or.inl hm)
          · exact Or.inl (Or.inr rfl)
          · exact Or.inr ⟨hr, hcard⟩

theorem promote_fold_nodup (num : Nat) (l : List PartialSolution) :
    ∀ (sf : SolutionFinder) (ns : List Solution),
      sf.solutions.linear_solutions.Nodup →
      (l.foldl (SolutionFinder.promoteStep num) (sf, ns)).1.solutions.linear_solutions.Nodup := by
  induction l with
  | nil => exact fun sf ns h => h
  | cons c₀ rest ih =>
    intro sf ns h
    rw [List.foldl_cons, promoteStep_eq]
    by_cases h₀ : c₀.unique_letters.card ≠ num
    · rw [if_pos h₀]; exact ih sf ns h
    · push_neg at h₀
      rw [if_neg (by simpa using h₀)]
      by_cases hc₀ : sf.solutions.contains c₀
      · rw [if_pos hc₀]; exact ih sf ns h
      · rw [if_neg hc₀]
        refine ih _ _ ?_
        simp only [SolutionFinder.add_new_solution_solutions,
          SolutionList.insert_linear_solutions]
        rw [List.nodup_append]
        refine ⟨h, List.nodup_singleton _, ?_⟩
        simpa [List.disjoint_singleton, SolutionList.contains] using hc₀

theorem promote_fold_frame (num : Nat) (l : List PartialSolution) :
    ∀ (sf : SolutionFinder) (ns : List Solution),
      (l.foldl (SolutionFinder.promoteStep num) (sf, ns)).1.game_dictionary =
          sf.game_dictionary ∧
      (l.foldl (SolutionFinder.promoteStep num) (sf, ns)).1.solution_candidates =
          sf.solution_candidates ∧
      (l.foldl (SolutionFinder.promoteStep num) (sf, ns)).1.max_depth = sf.max_depth ∧
      (l.foldl (SolutionFinder.promoteStep num) (sf, ns)).1.thread_should_stop =
          sf.thread_should_stop := by
  induction l with
  | nil => simp
  | cons c₀ rest ih =>
    intro sf ns
    rw [List.foldl_cons, promoteStep_eq]
    by_cases h₀ : c₀.unique_letters.card ≠ num
    · rw [if_pos h₀]; exact ih sf ns
    · push_neg at h₀
      rw [if_neg (by simpa using h₀)]
      by_cases hc₀ : sf.solutions.contains c₀
      · rw [if_pos hc₀]; exact ih sf ns
      · rw [if_neg hc₀]
        simpa using ih (sf.add_new_solution c₀) (ns ++ [c₀])

/-! ## Chain invariants of the candidates the engine produces -/

theorem MapOK_empty : MapOK PartialSolutionMap.empty := by
  constructor <;> intro e he <;> simp [PartialSolutionMap.empty] at he

theorem ViewOK_insert {m : PartialSolutionMap} {c : PartialSolution}
    (hm : ViewOK m) (hc : GoodPS c) : ViewOK (m.insert c) := by
  unfold ViewOK PartialSolutionMap.insert
  refine odSetApp_forall hm ?_ ?_
  · intro q hq
    simp only [odSetApp, List.mem_singleton] at hq
    subst hq
    intro x hx
    simp only [List.nil_append, List.mem_singleton] at hx
    subst hx
    exact ⟨rfl, hc⟩
  · intro inner hinner
    refine odSetApp_forall hinner ?_ ?_
    · intro x hx
      simp only [List.nil_append, List.mem_singleton] at hx
      subst hx
      exact ⟨rfl, hc⟩
    · intro w hw x hx
      rcases List.mem_append.mp hx with h | h
      · exact hw x h
      · rcases List.mem_singleton.mp h with rfl
        exact ⟨rfl, hc⟩

theorem MapOK_insert {m : PartialSolutionMap} {c : PartialSolution}
    (hm : MapOK m) (hc : GoodPS c) : MapOK (m.insert c) := by
  refine ⟨ViewOK_insert hm.1 hc, ?_⟩
  intro x hx
  rcases List.mem_append.mp hx with h | h
  · exact hm.2 x h
  · exact (List.mem_singleton.mp h) ▸ hc

theorem MapOK_merge {m : PartialSolutionMap} {other : List PartialSolution}
    (hm : MapOK m) (hother : ∀ c ∈ other, GoodPS c) : MapOK (m.merge other) := by
  induction other generalizing m with
  | nil => exact hm
  | cons c rest ih =>
    rw [PartialSolutionMap.merge_cons]
    by_cases hc : c ∈ m.linear_candidates
    · rw [if_pos hc]
      exact ih hm fun c' h' => hother c' (List.mem_cons_of_mem _ h')
    · rw [if_neg hc]
      exact ih (MapOK_insert hm (hother c (List.mem_cons_self _ _)))
        fun c' h' => hother c' (List.mem_cons_of_mem _ h')

theorem getItem_letter_spec {m : PartialSolutionMap} (hm : ViewOK m) {ch : Char}
    {c : PartialSolution} (hc : c ∈ m.getItem (.letter ch)) :
    c.last_letter = ch ∧ GoodPS c := by
  unfold PartialSolutionMap.getItem at hc
  rcases List.mem_flatten.mp hc with ⟨lc, hlc, hmem⟩
  rcases List.mem_map.mp hlc with ⟨q, hq, rfl⟩
  cases hfind : odFind ch m.candidates_by_uniques_by_last_letter with
  | none => rw [hfind] at hq; simp at hq
  | some inner =>
    rw [hfind] at hq
    simp only [Option.getD_some] at hq
    have hentry := odFind_some_mem hfind
    exact hm (ch, inner) hentry q hq c hmem

theorem clone_and_extend_good {c : PartialSolution} {w : Word}
    (hgood : GoodPS c) (hlast : c.last_letter = w.first_letter) :
    w ∉ c.sequence →
    c.clone_and_extend w = .ok ⟨c.sequence ++ [w], by simp⟩ ∧
      GoodPS ⟨c.sequence ++ [w], by simp⟩ := by
  intro hnotin
  constructor
  · unfold PartialSolution.clone_and_extend
    rw [if_neg (by simpa using hlast)]
  · constructor
    · have hch := hgood.1
      unfold Chained at hch ⊢
      rw [List.chain'_append]
      refine ⟨hch, List.chain'_singleton _, ?_⟩
      intro x hx y hy
      simp only [List.head?_cons, Option.mem_def, Option.some.injEq] at hy
      subst hy
      rw [List.getLast?_eq_getLast_of_ne_nil c.ne, Option.mem_def,
        Option.some.injEq] at hx
      subst hx
      exact hlast
    · rw [List.nodup_append]
      exact ⟨hgood.2, List.nodup_singleton _, by
        simpa [List.disjoint_singleton] using hnotin⟩

theorem extend_fold_ok {w : Word} (l : List PartialSolution)
    (hl : ∀ c ∈ l, c.last_letter = w.first_letter ∧ GoodPS c) :
    ∀ (acc : PartialSolutionMap), MapOK acc →
    ∃ m', l.foldlM (SolutionFinder.extendStep w) acc = .ok m' ∧ MapOK m' := by
  induction l with
  | nil => exact fun acc hacc => ⟨acc, rfl, hacc⟩
  | cons c rest ih =>
    intro acc hacc
    have hc := hl c (List.mem_cons_self _ _)
    have hrest : ∀ c' ∈ rest, c'.last_letter = w.first_letter ∧ GoodPS c' :=
      fun c' h' => hl c' (List.mem_cons_of_mem _ h')
    rw [List.foldlM_cons]
    unfold SolutionFinder.extendStep
    by_cases hin : w ∈ c.sequence
    · rw [if_pos hin]
      simpa using ih hrest acc hacc
    · rw [if_neg hin]
      obtain ⟨heq, hgood⟩ := clone_and_extend_good hc.2 hc.1 hin
      rw [heq]
      simpa using ih hrest _ (MapOK_insert hacc hgood)

theorem add_word_ok {sc : PartialSolutionMap} (hsc : ViewOK sc) (w : Word) :
    ∃ m', SolutionFinder.add_word_to_solution_candidates sc w = .ok m' ∧ MapOK m' := by
  unfold SolutionFinder.add_word_to_solution_candidates
  exact extend_fold_ok _ (fun c hc => getItem_letter_spec hsc hc) _ MapOK_empty

theorem gather_fold_ok {sc : PartialSolutionMap} (hsc : ViewOK sc)
    (ws : List Word) :
    ∀ (acc : PartialSolutionMap), MapOK acc →
    ∃ m', ws.foldlM (SolutionFinder.gatherStep sc) acc = .ok m' ∧ MapOK m' := by
  induction ws with
  | nil => exact fun acc hacc => ⟨acc, rfl, hacc⟩
  | cons w rest ih =>
    intro acc hacc
    obtain ⟨child, hchild, hchildok⟩ := add_word_ok hsc w
    rw [List.foldlM_cons]
    unfold SolutionFinder.gatherStep
    rw [hchild]
    simpa using ih _ (MapOK_merge hacc hchildok.2)

theorem GoodPS_single (w : Word) : GoodPS (PartialSolution.single w) :=
  ⟨List.chain'_singleton _, List.nodup_singleton _⟩

theorem promote_solOK {sf : SolutionFinder} {cands : PartialSolutionMap}
    (hsol : SolOK sf.solutions) (hlin : LinearOK cands) :
    SolOK ((sf.promote_candidates cands).1).solutions := by
  intro s hs
  rw [SolutionFinder.promote_candidates] at hs
  rcases (promote_fold_mem _ _ sf [] s).mp hs with hm | ⟨hc, _⟩
  · exact hsol s hm
  · exact hlin s hc

theorem promote_frame (sf : SolutionFinder) (cands : PartialSolutionMap) :
    ((sf.promote_candidates cands).1).game_dictionary = sf.game_dictionary ∧
    ((sf.promote_candidates cands).1).solution_candidates = sf.solution_candidates ∧
    ((sf.promote_candidates cands).1).max_depth = sf.max_depth ∧
    ((sf.promote_candidates cands).1).thread_should_stop = sf.thread_should_stop :=
  promote_fold_frame _ _ sf []

theorem mutate_ok {sf : SolutionFinder} (hmap : MapOK sf.solution_candidates)
    (hsol : SolOK sf.solutions) :
    ∃ sf' k, sf.mutate_solution_candidates = .ok (sf', k) ∧
      MapOK sf'.solution_candidates ∧ SolOK sf'.solutions := by
  obtain ⟨nc, hnc, hncok⟩ :=
    gather_fold_ok hmap.1 sf.game_dictionary.ordered_by_first_letter
      PartialSolutionMap.empty MapOK_empty
  cases hpc : sf.promote_candidates nc with
  | mk sf1 ns =>
    have hdict : sf1.solution_candidates = sf.solution_candidates := by
      have h := (promote_frame sf nc).2.1
      rw [hpc] at h
      exact h
    have hsol1 : SolOK sf1.solutions := by
      have h := promote_solOK hsol hncok.2
      rw [hpc] at h
      exact h
    refine ⟨{ sf1 with
        solution_candidates := sf1.solution_candidates.merge
          (nc.linear_candidates.filter (fun c => c ∉ ns)) },
      ns.length, ?_, ?_, ?_⟩
    · unfold SolutionFinder.mutate_solution_candidates
      rw [hnc]
      simp only [bind, Except.bind, pure, Except.pure, hpc]
    · simp only [hdict]
      refine MapOK_merge hmap ?_
      intro c hc
      exact hncok.2 c (List.mem_of_mem_filter hc)
    · exact hsol1

theorem bfLoop_ok :
    ∀ (fuel : Nat) (sf : SolutionFinder) (b : Bool) (d : Nat),
      MapOK sf.solution_candidates → SolOK sf.solutions →
      ∃ sf', SolutionFinder.bfLoop fuel sf b d = .ok sf' ∧
        MapOK sf'.solution_candidates ∧ SolOK sf'.solutions := by
  intro fuel
  induction fuel with
  | zero => exact fun sf b d hm hs => ⟨sf, rfl, hm, hs⟩
  | succ fuel ih =>
    intro sf b d hm hs
    unfold SolutionFinder.bfLoop
    by_cases hstop : sf.thread_should_stop
    · rw [if_pos hstop]
      exact ⟨sf, rfl, hm, hs⟩
    · rw [if_neg hstop]
      obtain ⟨sf1, k, hmut, hm1, hs1⟩ := mutate_ok hm hs
      rw [hmut]
      simp only [bind, Except.bind]
      by_cases h1 : ((if k ≠ 0 then true else b) = true ∧ k = 0)
      · rw [if_pos h1]
        exact ⟨sf1, rfl, hm1, hs1⟩
      · rw [if_neg h1]
        by_cases h2 : sf1.max_depth ≠ 0 ∧ d + 1 ≥ sf1.max_depth
        · rw [if_pos h2]
          exact ⟨sf1, rfl, hm1, hs1⟩
        · rw [if_neg h2]
          exact ih sf1 _ _ hm1 hs1

theorem seed_fold_linear (ws : List Word) :
    ∀ (m : PartialSolutionMap),
      (ws.foldl (fun acc w => acc.insert (PartialSolution.single w)) m).linear_candidates =
        m.linear_candidates ++ ws.map PartialSolution.single ∧
      (ws.foldl (fun acc w => acc.insert (PartialSolution.single w)) m).count =
        m.count + ws.length := by
  induction ws with
  | nil => simp
  | cons w rest ih =>
    intro m
    rw [List.foldl_cons]
    obtain ⟨h1, h2⟩ := ih (m.insert (PartialSolution.single w))
    refine ⟨?_, ?_⟩
    · rw [h1]; simp
    · rw [h2]; simp; omega

/-! ## Invariant of `SolutionList` under `insert` -/

theorem sortEntries_perm (l : List (Nat × List Solution)) : (sortEntries l).Perm l :=
  List.perm_insertionSort _ _

theorem sortEntries_sorted (l : List (Nat × List Solution)) :
    (sortEntries l).Pairwise entryLe :=
  List.sorted_insertionSort _ _

theorem EntriesLt.keys_nodup {l : List (Nat × List Solution)} (h : EntriesLt l) :
    (l.map Prod.fst).Nodup := by
  unfold List.Nodup
  rw [List.pairwise_map]
  exact h.imp Nat.ne_of_lt

theorem EntriesLt_of_le_of_nodup {l : List (Nat × List Solution)}
    (hle : l.Pairwise entryLe) (hnd : (l.map Prod.fst).Nodup) : EntriesLt l := by
  have hle' : l.Pairwise (fun a b => a.1 ≤ b.1) := hle
  have hne : l.Pairwise (fun a b => a.1 ≠ b.1) := by
    unfold List.Nodup at hnd
    exact List.pairwise_map.mp hnd
  exact (hle'.and hne).imp fun h => lt_of_le_of_ne h.1 h.2

theorem EntriesLt_transfer {l l' : List (Nat × List Solution)}
    (h : EntriesLt l) (hkeys : l'.map Prod.fst = l.map Prod.fst) : EntriesLt l' := by
  have hl : (l.map Prod.fst).Pairwise (· < ·) := List.pairwise_map.mpr h
  rw [← hkeys] at hl
  exact List.pairwise_map.mp hl

theorem SolutionList_insert_invariant (sl : SolutionList) (ss : List Solution)
    (s : Solution)
    (h1 : EntriesLt sl.solutions_by_words)
    (h2 : ∀ n, odFind n sl.solutions_by_words =
      (if (ss.filter (fun x => x.length == n)).isEmpty then none
       else some (ss.filter (fun x => x.length == n)))) :
    EntriesLt (sl.insert s).solutions_by_words ∧
    ∀ n, odFind n (sl.insert s).solutions_by_words =
      (if ((ss ++ [s]).filter (fun x => x.length == n)).isEmpty then none
       else some ((ss ++ [s]).filter (fun x => x.length == n))) := by
  have hfilter_ne : ∀ n, n ≠ s.length →
      (ss ++ [s]).filter (fun x => x.length == n) =
        ss.filter (fun x => x.length == n) := by
    intro n hn
    rw [List.filter_append]
    have : (s.length == n) = false := by
      exact beq_eq_false_iff_ne.mpr fun h => hn h.symm
    simp [List.filter, this]
  have hfilter_self :
      (ss ++ [s]).filter (fun x => x.length == s.length) =
        ss.filter (fun x => x.length == s.length) ++ [s] := by
    rw [List.filter_append]
    simp [List.filter]
  cases hfind : odFind s.length sl.solutions_by_words with
  | some lst =>
    have h2s := h2 s.length
    rw [hfind] at h2s
    have hne : (ss.filter (fun x => x.length == s.length)).isEmpty = false := by
      by_contra h
      rw [Bool.not_eq_false] at h
      rw [if_pos h] at h2s
      exact Option.noConfusion h2s
    rw [if_neg (by simp [hne])] at h2s
    have hlst : lst = ss.filter (fun x => x.length == s.length) :=
      Option.some.inj h2s
    have hins : (sl.insert s).solutions_by_words =
        odSetApp s.length [] (fun l => l ++ [s]) sl.solutions_by_words := by
      simp only [SolutionList.insert, hfind, Option.isSome_some, Option.getD_some,
        hlst, hne]
      simp
    constructor
    · refine EntriesLt_transfer h1 ?_
      rw [hins]
      exact odSetApp_map_fst_of_isSome (by rw [hfind]; rfl)
    · intro n
      rw [hins]
      by_cases hn : n = s.length
      · subst hn
        rw [odFind_odSetApp_self, hfind]
        rw [hfilter_self]
        rw [if_neg (by simp)]
        rw [Option.getD_some, hlst]
      · rw [odFind_odSetApp_ne hn, hfilter_ne n hn]
        exact h2 n
  | none =>
    have h2s := h2 s.length
    rw [hfind] at h2s
    have hempty : (ss.filter (fun x => x.length == s.length)) = [] := by
      by_cases h : (ss.filter (fun x => x.length == s.length)).isEmpty
      · exact List.isEmpty_iff.mp h
      · rw [if_neg h] at h2s
        exact Option.noConfusion h2s
    have hd1 : (sl.insert s).solutions_by_words =
        odSetApp s.length [] (fun l => l ++ [s])
          (sortEntries (sl.solutions_by_words ++ [(s.length, [])])) := by
      simp only [SolutionList.insert, hfind]
      simp
    set d1 := sl.solutions_by_words ++ [(s.length, [])] with hd1def
    have hk1 : (d1.map Prod.fst).Nodup := by
      rw [hd1def, List.map_append]
      rw [List.nodup_append]
      refine ⟨h1.keys_nodup, List.nodup_singleton _, ?_⟩
      intro a ha hb
      simp only [List.map_cons, List.map_nil, List.mem_singleton] at hb
      subst hb
      exact odFind_none_iff.mp hfind ha
    have hperm : (sortEntries d1).Perm d1 := sortEntries_perm d1
    have hk2 : ((sortEntries d1).map Prod.fst).Nodup :=
      ((hperm.map Prod.fst).nodup_iff).mpr hk1
    have hfind_d2 : ∀ m, odFind m (sortEntries d1) = odFind m d1 :=
      fun m => odFind_congr_perm hperm hk2
    have hd1find : ∀ m, odFind m d1 =
        if m = s.length then some [] else odFind m sl.solutions_by_words := by
      intro m
      by_cases hm : m = s.length
      · subst hm
        rw [if_pos rfl, hd1def, odFind_append_of_none hfind]
        simp [odFind]
      · rw [if_neg hm, hd1def]
        cases hmfind : odFind m sl.solutions_by_words with
        | some v => exact odFind_append_of_some hmfind
        | none =>
          rw [odFind_append_of_none hmfind]
          have hm' : ¬ PartialSolution.length s = m := fun h => hm h.symm
          simp [odFind, hm']
    have hd2lt : EntriesLt (sortEntries d1) :=
      EntriesLt_of_le_of_nodup (sortEntries_sorted d1) hk2
    have hd2self : odFind s.length (sortEntries d1) = some [] := by
      rw [hfind_d2, hd1find]
      simp
    constructor
    · refine EntriesLt_transfer hd2lt ?_
      rw [hd1]
      exact odSetApp_map_fst_of_isSome (by rw [hd2self]; rfl)
    · intro n
      rw [hd1]
      by_cases hn : n = s.length
      · subst hn
        rw [odFind_odSetApp_self, hd2self]
        rw [hfilter_self, hempty]
        simp
      · rw [odFind_odSetApp_ne hn, hfind_d2, hd1find, if_neg hn,
          hfilter_ne n hn]
        exact h2 n

theorem buildSL_concat (ss : List Solution) (s : Solution) :
    buildSL (ss ++ [s]) = (buildSL ss).insert s := by
  unfold buildSL
  rw [List.foldl_append]
  rfl

theorem buildSL_invariant (ss : List Solution) :
    EntriesLt (buildSL ss).solutions_by_words ∧
    ∀ n, odFind n (buildSL ss).solutions_by_words =
      (if (ss.filter (fun x => x.length == n)).isEmpty then none
       else some (ss.filter (fun x => x.length == n))) := by
  induction ss using List.reverseRecOn with
  | nil =>
    refine ⟨List.Pairwise.nil, ?_⟩
    intro n
    simp [buildSL, SolutionList.empty, odFind]
  | append_singleton ss s ih =>
    rw [buildSL_concat]
    exact SolutionList_insert_invariant _ ss s ih.1 ih.2

theorem foldl_insert_linear (ss : List Solution) :
    ∀ (sl : SolutionList),
      (ss.foldl SolutionList.insert sl).linear_solutions =
        sl.linear_solutions ++ ss ∧
      (ss.foldl SolutionList.insert sl).count = sl.count + ss.length := by
  induction ss with
  | nil => simp
  | cons s rest ih =>
    intro sl
    rw [List.foldl_cons]
    obtain ⟨h1, h2⟩ := ih (sl.insert s)
    constructor
    · rw [h1]; simp
    · rw [h2]; simp; omega

theorem buildSL_linear (ss : List Solution) :
    (buildSL ss).linear_solutions = ss ∧ (buildSL ss).count = ss.length := by
  have h := foldl_insert_linear ss SolutionList.empty
  simpa [buildSL, SolutionList.empty] using h

theorem buildSL_group (ss : List Solution) :
    ∀ e ∈ (buildSL ss).solutions_by_words,
      e.2 = ss.filter (fun x => x.length == e.1) := by
  intro e he
  obtain ⟨hlt, hfind⟩ := buildSL_invariant ss
  have hsome : odFind e.1 (buildSL ss).solutions_by_words = some e.2 := by
    refine (odFind_eq_some_iff_of_nodup hlt.keys_nodup).mpr ?_
    rw [Prod.mk.eta]
    exact he
  have h := hfind e.1
  rw [hsome] at h
  by_cases hc : (ss.filter (fun x => x.length == e.1)).isEmpty = true
  · rw [if_pos hc] at h
    exact Option.noConfusion h
  · rw [if_neg hc] at h
    exact Option.some.inj h

theorem seed_MapOK (sf : SolutionFinder) : MapOK sf.seed_candidates := by
  unfold SolutionFinder.seed_candidates
  generalize sf.game_dictionary.ordered_by_first_letter = ws
  have : ∀ (m : PartialSolutionMap), MapOK m →
      MapOK (ws.foldl (fun acc w => acc.insert (PartialSolution.single w)) m) := by
    induction ws with
    | nil => exact fun m hm => hm
    | cons w rest ih =>
      intro m hm
      rw [List.foldl_cons]
      exact ih _ (MapOK_insert hm (GoodPS_single w))
  exact this _ MapOK_empty

/-! ## Claim theorems -/

/-- **C1.** For every candidate examined by `_promote_candidates`, the
candidate ends up in the solution index if and only if it was already there
or it lies in the examined collection and its `unique_letters` size equals
the total box letter count (`len(get_letter_candidates())`); and promotion
never records a structurally equal solution a second time (a duplicate-free
index stays duplicate-free). -/
theorem c1_promotion_iff (sf : SolutionFinder) (cands : PartialSolutionMap) :
    (∀ c : Solution,
      c ∈ ((sf.promote_candidates cands).1).solutions.linear_solutions ↔
        c ∈ sf.solutions.linear_solutions ∨
          (c ∈ cands.linear_candidates ∧
            c.unique_letters.card =
              (sf.game_dictionary.get_letter_candidates none).length)) ∧
    (sf.solutions.linear_solutions.Nodup →
      ((sf.promote_candidates cands).1).solutions.linear_solutions.Nodup) := by
  constructor
  · intro c
    exact promote_fold_mem _ _ sf [] c
  · intro h
    exact promote_fold_nodup _ _ sf [] h

theorem c1_promotion_iff_witness :
    (c3_solution ∈ (((SolutionFinder.init c3_dict).promote_candidates
        (PartialSolutionMap.empty.insert c3_solution)).1).solutions.linear_solutions ↔
      c3_solution ∈ (SolutionFinder.init c3_dict).solutions.linear_solutions ∨
        (c3_solution ∈ (PartialSolutionMap.empty.insert c3_solution).linear_candidates ∧
          c3_solution.unique_letters.card =
            ((SolutionFinder.init c3_dict).game_dictionary.get_letter_candidates
              none).length)) ∧
    (((SolutionFinder.init c3_dict).promote_candidates
        (PartialSolutionMap.empty.insert c3_solution)).1).solutions.linear_solutions.Nodup :=
  ⟨(c1_promotion_iff (SolutionFinder.init c3_dict)
      (PartialSolutionMap.empty.insert c3_solution)).1 c3_solution,
   (c1_promotion_iff (SolutionFinder.init c3_dict)
      (PartialSolutionMap.empty.insert c3_solution)).2 (by decide)⟩

/-- **C2.** Running the breadth-first engine from a fresh finder, for any
dictionary, depth bound and number of generations: no chain-violation error
is ever raised (the expansion step only extends candidates whose last letter
matches the new word's first letter), and every candidate in the index and
every recorded solution is a chain (`w[i].last_letter = w[i+1].first_letter`)
with no repeated word. -/
theorem c2_engine_chain_invariant (d : GameDictionary) (md fuel : Nat) :
    ∃ sf', SolutionFinder.find_solutions_breadth_first fuel
        (SolutionFinder.init d md) = .ok sf' ∧
      (∀ c ∈ sf'.solution_candidates.linear_candidates,
        List.Chain' (fun a b => a.last_letter = b.first_letter) c.sequence ∧
          c.sequence.Nodup) ∧
      (∀ s ∈ sf'.solutions.linear_solutions,
        List.Chain' (fun a b => a.last_letter = b.first_letter) s.sequence ∧
          s.sequence.Nodup) := by
  unfold SolutionFinder.find_solutions_breadth_first
  have hmap : MapOK ({ SolutionFinder.init d md with
      solution_candidates :=
        (SolutionFinder.init d md).seed_candidates } :
        SolutionFinder).solution_candidates :=
    seed_MapOK (SolutionFinder.init d md)
  have hsol : SolOK ({ SolutionFinder.init d md with
      solution_candidates :=
        (SolutionFinder.init d md).seed_candidates } :
        SolutionFinder).solutions := by
    intro s hs
    simp [SolutionFinder.init, SolutionList.empty] at hs
  obtain ⟨sf', hrun, hm, hs⟩ := bfLoop_ok fuel _ false 0 hmap hsol
  exact ⟨sf', hrun, fun c hc => hm.2 c hc, fun s hss => hs s hss⟩

theorem c2_engine_chain_invariant_witness :
    ∃ sf', SolutionFinder.find_solutions_breadth_first 2
        (SolutionFinder.init c4_dict 0) = .ok sf' ∧
      (∀ c ∈ sf'.solution_candidates.linear_candidates,
        List.Chain' (fun a b => a.last_letter = b.first_letter) c.sequence ∧
          c.sequence.Nodup) ∧
      (∀ s ∈ sf'.solutions.linear_solutions,
        List.Chain' (fun a b => a.last_letter = b.first_letter) s.sequence ∧
          s.sequence.Nodup) :=
  c2_engine_chain_invariant c4_dict 0 2

/-- **C3.** The documented scenario: with box letters
`{c,a,r,e,o,l,d,n,u,i,b,y}` and the nine-word dictionary, seeding produces 9
one-word candidates; after generation 1 the index holds 20 candidates and no
solution; generation 2 finds the 3-word solution `could-drain-nearby`. -/
theorem c3_breadth_first_scenario :
    c3_sf0.solution_candidates.count = 9 ∧
    (c3_sf0.mutate_solution_candidates).isOk = true ∧
    (mutateStep c3_sf0).solution_candidates.count = 20 ∧
    (mutateStep c3_sf0).solutions.count = 0 ∧
    ((mutateStep c3_sf0).mutate_solution_candidates).isOk = true ∧
    c3_solution.length = 3 ∧
    c3_solution ∈ (mutateStep (mutateStep c3_sf0)).solutions.linear_solutions := by
  decide

/-- **C4.** The loop the solver thread actually runs ignores the stop flag:
`__init__` wires the thread to `_find_solutions_depth_first`, which contains
no check of `_thread_should_stop`.  With the flag already set before the run,
the breadth-first loop would stop at once (second conjunct), but the
depth-first target still performs its full pass structure, inserting one
root candidate per meta pass (count 3 on a one-word dictionary), and
terminates only because its pass counters are exhausted. -/
theorem c4_stop_flag_ignored :
    c4_sf.thread_should_stop = true ∧
    (∀ fuel b d, SolutionFinder.bfLoop fuel c4_sf b d = .ok c4_sf) ∧
    (c4_sf.find_solutions_depth_first).isOk = true ∧
    (dfStep c4_sf).solution_candidates.count = 3 ∧
    (dfStep c4_sf).thread_should_stop = true := by
  refine ⟨rfl, ?_, by decide, by decide, by decide⟩
  intro fuel b d
  cases fuel with
  | zero => rfl
  | succ n =>
    unfold SolutionFinder.bfLoop
    rw [if_pos (show c4_sf.thread_should_stop = true from rfl)]

/-- **C5.** `merge` deduplicates by structural equality against the growing
flat list: merging a collection of already-present candidates leaves the
whole index unchanged, the merged flat list holds exactly the union of the
old candidates and the merged collection, and a duplicate-free flat list
stays duplicate-free. -/
theorem c5_merge_dedup (m : PartialSolutionMap) (other : List PartialSolution) :
    ((∀ c ∈ other, c ∈ m.linear_candidates) → m.merge other = m) ∧
    (∀ c : PartialSolution, c ∈ (m.merge other).linear_candidates ↔
      c ∈ m.linear_candidates ∨ c ∈ other) ∧
    (m.linear_candidates.Nodup → (m.merge other).linear_candidates.Nodup) :=
  ⟨fun h => PartialSolutionMap.merge_of_subset m other h,
   fun c => PartialSolutionMap.mem_merge_linear m other c,
   fun h => PartialSolutionMap.merge_nodup m other h⟩

theorem c5_merge_dedup_witness :
    ((PartialSolutionMap.empty.insert psA).merge [psA] =
      PartialSolutionMap.empty.insert psA) ∧
    (psA ∈ ((PartialSolutionMap.empty.insert psA).merge [psA]).linear_candidates ↔
      psA ∈ (PartialSolutionMap.empty.insert psA).linear_candidates ∨ psA ∈ [psA]) ∧
    ((PartialSolutionMap.empty.insert psA).merge [psA]).linear_candidates.Nodup :=
  ⟨(c5_merge_dedup (PartialSolutionMap.empty.insert psA) [psA]).1 (by decide),
   (c5_merge_dedup (PartialSolutionMap.empty.insert psA) [psA]).2.1 psA,
   (c5_merge_dedup (PartialSolutionMap.empty.insert psA) [psA]).2.2 (by decide)⟩

/-- **C6.** For a `SolutionIndex` built by any sequence of inserts, full
iteration (`__iter__`: groups in dict order) yields non-decreasing chain
lengths, every group holds exactly the inserted solutions of its length in
insertion order, and every inserted solution shows up in the traversal. -/
theorem c6_iteration_ordered (ss : List Solution) :
    (((buildSL ss).iterList).map PartialSolution.length).Pairwise (· ≤ ·) ∧
    (∀ n l, odFind n (buildSL ss).solutions_by_words = some l →
      l = ss.filter (fun x => x.length == n)) ∧
    (∀ s ∈ ss, s ∈ (buildSL ss).iterList) := by
  obtain ⟨hlt, hfind⟩ := buildSL_invariant ss
  have hgroup := buildSL_group ss
  have hlen : ∀ e ∈ (buildSL ss).solutions_by_words, ∀ x ∈ e.2,
      x.length = e.1 := by
    intro e he x hx
    rw [hgroup e he] at hx
    have heq := (List.mem_filter.mp hx).2
    simp only [beq_iff_eq] at heq
    exact heq
  refine ⟨?_, ?_, ?_⟩
  · rw [List.pairwise_map]
    unfold SolutionList.iterList
    rw [List.pairwise_flatten]
    constructor
    · intro l hl
      rcases List.mem_map.mp hl with ⟨e, he, rfl⟩
      refine List.pairwise_of_forall_mem_list ?_
      intro a ha b hb
      rw [hlen e he a ha, hlen e he b hb]
    · rw [List.pairwise_map]
      refine hlt.imp_of_mem ?_
      intro e₁ e₂ h₁ h₂ hlt12
      intro x hx y hy
      rw [hlen e₁ h₁ x hx, hlen e₂ h₂ y hy]
      exact Nat.le_of_lt hlt12
  · intro n l h
    have h2 := hfind n
    rw [h] at h2
    by_cases hc : (ss.filter (fun x => x.length == n)).isEmpty = true
    · rw [if_pos hc] at h2
      exact Option.noConfusion h2
    · rw [if_neg hc] at h2
      exact Option.some.inj h2
  · intro s hs
    have hmem : s ∈ ss.filter (fun x => x.length == s.length) :=
      List.mem_filter.mpr ⟨hs, by simp⟩
    have hne : (ss.filter (fun x => x.length == s.length)).isEmpty = false := by
      rcases hfe : (ss.filter (fun x => x.length == s.length)) with _ | ⟨a, l⟩
      · rw [hfe] at hmem
        exact absurd hmem (List.not_mem_nil s)
      · rw [hfe]
        rfl
    have hsome : odFind s.length (buildSL ss).solutions_by_words =
        some (ss.filter (fun x => x.length == s.length)) := by
      rw [hfind s.length, if_neg (by simp [hne])]
    refine List.mem_flatten.mpr
      ⟨ss.filter (fun x => x.length == s.length), ?_, hmem⟩
    exact List.mem_map.mpr
      ⟨(s.length, ss.filter (fun x => x.length == s.length)),
        odFind_some_mem hsome, rfl⟩

theorem c6_iteration_ordered_witness :
    (((buildSL [ps2]).iterList).map PartialSolution.length).Pairwise (· ≤ ·) ∧
    [ps2] = [ps2].filter (fun x => x.length == 2) ∧
    ps2 ∈ (buildSL [ps2]).iterList :=
  ⟨(c6_iteration_ordered [ps2]).1,
   (c6_iteration_ordered [ps2]).2.1 2 [ps2] (by decide),
   (c6_iteration_ordered [ps2]).2.2 ps2 (by decide)⟩

/-- **C7 (counterexample).** Inserting a 3-word solution and then a 2-word
solution: `flatten()` returns the flat append-only list `[s₃, s₂]`, whose
length trace `[3, 2]` is not ascending — `flatten` does *not* order by chain
length (iteration does; `flatten` returns `linear_solutions` untouched). -/
theorem c7_flatten_not_sorted :
    (buildSL [ps3, ps2]).flatten = [ps3, ps2] ∧
    ¬ (((buildSL [ps3, ps2]).flatten).map PartialSolution.length).Pairwise
        (· ≤ ·) := by
  decide

/-- **C7 (amended).** `flatten()` returns all inserted solutions in plain
insertion order (the flat list), regardless of chain length. -/
theorem c7_flatten_insertion_order (ss : List Solution) :
    (buildSL ss).flatten = ss :=
  (buildSL_linear ss).1

theorem c7_flatten_insertion_order_witness :
    (buildSL [ps2, ps3]).flatten = [ps2, ps3] :=
  c7_flatten_insertion_order [ps2, ps3]

/-- **C8 (counterexample).** For the dictionary `abb, abc, bcc` (unique
counts 2, 3, 2), seeding follows `ordered_by_first_letter` — the resulting
candidate list is neither the `ordered_by_uniques` traversal nor monotone in
unique-letter count in either direction, refuting "iterates the catalog in
unique-letter-count order". -/
theorem c8_seed_not_uniques_order :
    ((SolutionFinder.init c8_dict).seed_candidates.linear_candidates =
      (c8_dict.ordered_by_first_letter).map PartialSolution.single) ∧
    ((c8_dict.ordered_by_uniques).map PartialSolution.single ≠
      (SolutionFinder.init c8_dict).seed_candidates.linear_candidates) ∧
    ¬ (((SolutionFinder.init c8_dict).seed_candidates.linear_candidates.map
        (fun p => p.unique_letters.card)).Pairwise (· ≤ ·)) ∧
    ¬ (((SolutionFinder.init c8_dict).seed_candidates.linear_candidates.map
        (fun p => p.unique_letters.card)).Pairwise (· ≥ ·)) := by
  decide

/-- **C8 (amended).** `_seed_candidates` builds exactly one one-word
candidate per catalog word, iterating the catalog in first-letter order
(`ordered_by_first_letter`), so the initial index holds one candidate per
word in that order. -/
theorem c8_seed_first_letter_order (sf : SolutionFinder) :
    sf.seed_candidates.linear_candidates =
      (sf.game_dictionary.ordered_by_first_letter).map PartialSolution.single ∧
    sf.seed_candidates.count =
      (sf.game_dictionary.ordered_by_first_letter).length := by
  unfold SolutionFinder.seed_candidates
  have h := seed_fold_linear (sf.game_dictionary.ordered_by_first_letter)
    PartialSolutionMap.empty
  simpa [PartialSolutionMap.empty] using h

theorem c8_seed_first_letter_order_witness :
    (SolutionFinder.init c8_dict).seed_candidates.linear_candidates =
      (c8_dict.ordered_by_first_letter).map PartialSolution.single ∧
    (SolutionFinder.init c8_dict).seed_candidates.count =
      (c8_dict.ordered_by_first_letter).length :=
  c8_seed_first_letter_order (SolutionFinder.init c8_dict)

/-- **C9.** `get_solutions` (deepcopy under the lock) in the explicit store
model: the returned reference is distinct from the engine's, the copied
contents equal the engine's solutions at the time of the call, and writing
any value through the returned reference leaves the engine's solutions
unchanged. -/
theorem c9_get_solutions_snapshot (st : SolutionStore) (engine : Nat)
    (h : engine < st.cells.length) :
    ((st.get_solutions engine).2 ≠ engine) ∧
    ((st.get_solutions engine).1.read (st.get_solutions engine).2 =
      st.read engine) ∧
    (∀ v, ((st.get_solutions engine).1.write (st.get_solutions engine).2 v).read
        engine = st.read engine) := by
  refine ⟨(Nat.ne_of_lt h).symm, ?_, ?_⟩
  · unfold SolutionStore.get_solutions SolutionStore.read
    rw [List.getD_eq_getElem?_getD, List.getElem?_concat_length]
    rfl
  · intro v
    unfold SolutionStore.get_solutions SolutionStore.write SolutionStore.read
    rw [List.getD_eq_getElem?_getD, List.getElem?_set_ne (Nat.ne_of_lt h).symm,
      List.getElem?_append_left h, List.getD_eq_getElem?_getD]

theorem c9_get_solutions_snapshot_witness :
    ((c9_store.get_solutions 0).2 ≠ 0) ∧
    ((c9_store.get_solutions 0).1.read (c9_store.get_solutions 0).2 =
      c9_store.read 0) ∧
    (∀ v, ((c9_store.get_solutions 0).1.write (c9_store.get_solutions 0).2 v).read 0 =
      c9_store.read 0) :=
  c9_get_solutions_snapshot c9_store 0 (by decide)

/-- **C10.** A `SolutionList` word-count lookup is a direct dict access:
an absent length key yields `KeyError` (modelled `none`), never an empty
list; a `PartialSolutionMap` lookup by an absent last letter or unique count
instead returns `[]`. -/
theorem c10_lookup_contrast :
    (∀ (sl : SolutionList) (n : Nat),
      n ∉ sl.solutions_by_words.map Prod.fst → sl.getItemWords n = none) ∧
    (∀ (m : PartialSolutionMap) (ch : Char),
      ch ∉ m.candidates_by_uniques_by_last_letter.map Prod.fst →
        m.getItem (.letter ch) = []) ∧
    (∀ (m : PartialSolutionMap) (n : Nat),
      n ∉ m.candidates_by_last_letter_by_uniques.map Prod.fst →
        m.getItem (.uniques n) = []) := by
  refine ⟨?_, ?_, ?_⟩
  · intro sl n h
    exact odFind_none_iff.mpr h
  · intro m ch h
    simp only [PartialSolutionMap.getItem]
    rw [odFind_none_iff.mpr h]
    rfl
  · intro m n h
    simp only [PartialSolutionMap.getItem]
    rw [odFind_none_iff.mpr h]
    rfl

theorem c10_lookup_contrast_witness :
    SolutionList.empty.getItemWords 3 = none ∧
    PartialSolutionMap.empty.getItem (.letter 'a') = [] ∧
    PartialSolutionMap.empty.getItem (.uniques 3) = [] :=
  ⟨c10_lookup_contrast.1 SolutionList.empty 3 (by decide),
   c10_lookup_contrast.2.1 PartialSolutionMap.empty 'a' (by decide),
   c10_lookup_contrast.2.2 PartialSolutionMap.empty 3 (by decide)⟩

end LBSolve
